import Mathlib

/-!
Verification development for the `mdrun` markdown command runner.

The program parses a markdown document into a tree of heading nodes
(`parse_markdown_content` in `src/markdown.c` / `src/main.c`), where each
node carries fenced code blocks, environment-variable bindings extracted
from markdown tables, and child nodes.  A resolved node's ancestor chain of
environment bindings is applied to the process environment with `setenv`
(root first, leaf last), and then the node's code blocks are executed in
order, stopping at the first failure (`find_and_execute_command`,
`execute_code_blocks`).

The embedding below models C strings as `List Char` and the node graph as
an arena (`List CmdNode`) indexed by allocation order, with index 0 the
synthetic root; `parent`/`children` pointers become indices.  Lines are
produced exactly as by `strtok(buffer, "\n")`: maximal runs of `'\n'` act
as one separator, so empty lines yield no token at all.  Child-process
behaviour is modelled by an oracle `statusOf : CodeBlock → Nat` giving the
exit status `WEXITSTATUS` would report for the spawned child (children are
assumed to terminate normally and `fork` to succeed; abnormal termination
and spawn failure are outside the claims proved here).
-/

/-- C strings (the contents of a `char *`, without the terminating NUL). -/
abbrev CStr := List Char

/-- C `isspace` on the default locale: space, `\t`, `\n`, `\v`, `\f`, `\r`. -/
def cIsSpace (c : Char) : Bool :=
  c = ' ' || c = '\t' || c = '\n' || c = '\x0b' || c = '\x0c' || c = '\r'

/-- C `tolower` restricted to ASCII, as used via `strcasecmp`. -/
def cToLower (c : Char) : Char :=
  if 'A' ≤ c ∧ c ≤ 'Z' then Char.ofNat (c.toNat + 32) else c

/-- `strcasecmp(a, b) == 0`: case-insensitive equality of two C strings. -/
def strcaseeq : CStr → CStr → Bool
  | [], [] => true
  | a :: as_, b :: bs => cToLower a = cToLower b && strcaseeq as_ bs
  | _, _ => false

/-- Right-trim `isspace` characters (the backwards `key_end`/`value_end`
trimming loops of `parse_table_row`, and the info-string trimming of
`is_code_block_start`). -/
def rtrim (l : CStr) : CStr :=
  (l.reverse.dropWhile cIsSpace).reverse

/-- Accumulator-based core of `strtok(buffer, "\n")` tokenisation: `acc` is
the reversed partial token currently being scanned. -/
def strtokGo : CStr → CStr → List CStr
  | acc, [] => if acc = [] then [] else [acc.reverse]
  | acc, c :: rest =>
      if c = '\n' then
        if acc = [] then strtokGo [] rest else acc.reverse :: strtokGo [] rest
      else strtokGo (c :: acc) rest

/-- The sequence of lines `strtok(buffer, "\n")` yields for a document:
maximal nonempty runs of non-newline characters.  Empty lines produce no
token (consecutive delimiters are skipped by `strtok`). -/
def strtokLines (cs : CStr) : List CStr :=
  strtokGo [] cs

/-- `strncmp(s, "```", 3) == 0`: does the line open or close a fence? -/
def isFence (l : CStr) : Bool :=
  ("```".data).isPrefixOf l

/-- One interpreter mapping of the language registry
(`struct language_config`). -/
structure LanguageConfig where
  name : CStr
  prefixArgs : List CStr
deriving DecidableEq, Repr

/-- The static registry `language_configs` of `src/lang_config.c` /
`src/main.c`. -/
def language_configs : List LanguageConfig :=
  [ ⟨"sh".data, ["$NAME".data, "-euc".data, "$CODE".data, "--".data]⟩
  , ⟨"bash".data, ["$NAME".data, "-euc".data, "$CODE".data, "--".data]⟩
  , ⟨"zsh".data, ["$NAME".data, "-euc".data, "$CODE".data, "--".data]⟩
  , ⟨"fish".data, ["$NAME".data, "-euc".data, "$CODE".data, "--".data]⟩
  , ⟨"dash".data, ["$NAME".data, "-euc".data, "$CODE".data, "--".data]⟩
  , ⟨"ksh".data, ["$NAME".data, "-euc".data, "$CODE".data, "--".data]⟩
  , ⟨"ash".data, ["$NAME".data, "-euc".data, "$CODE".data, "--".data]⟩
  , ⟨"shell".data, ["$NAME".data, "-euc".data, "$CODE".data, "--".data]⟩
  , ⟨"awk".data, ["awk".data, "$CODE".data]⟩
  , ⟨"js".data, ["node".data, "-e".data, "$CODE".data]⟩
  , ⟨"javascript".data, ["node".data, "-e".data, "$CODE".data]⟩
  , ⟨"py".data, ["python".data, "-c".data, "$CODE".data]⟩
  , ⟨"python".data, ["python".data, "-c".data, "$CODE".data]⟩
  , ⟨"rb".data, ["ruby".data, "-e".data, "$CODE".data]⟩
  , ⟨"ruby".data, ["ruby".data, "-e".data, "$CODE".data]⟩
  , ⟨"php".data, ["php".data, "-r".data, "$CODE".data]⟩
  , ⟨"cmd".data, ["cmd.exe".data, "/c".data, "$CODE".data]⟩
  , ⟨"batch".data, ["cmd.exe".data, "/c".data, "$CODE".data]⟩
  , ⟨"powershell".data, ["powershell.exe".data, "-c".data, "$CODE".data]⟩ ]

/-- `get_language_config` (`src/lang_config.c`): linear scan, first
case-insensitive name match wins. -/
def get_language_config (lang : CStr) : Option LanguageConfig :=
  language_configs.find? (fun c => strcaseeq c.name lang)

/-- `is_language_supported` (`src/lang_config.c`). -/
def is_language_supported (lang : CStr) : Bool :=
  (get_language_config lang).isSome

/-- `struct env_entry`: one key/value binding. -/
structure EnvEntry where
  key : CStr
  value : CStr
deriving DecidableEq, Repr, Inhabited

/-- `struct code_block`: language info-string plus captured source. -/
structure CodeBlock where
  info : CStr
  content : CStr
deriving DecidableEq, Repr, Inhabited

/-- `struct cmd_node`, with pointers replaced by arena indices: `parentId`
is the `parent` back-pointer, `childrenIds` is the `children` list
flattened through the `next` sibling chain (append order = document
order).  `env` is kept in the list order of the C code: `add_env_var`
pushes new entries on the *front*. -/
structure CmdNode where
  level : Nat
  headingText : Option CStr
  codeBlocks : List CodeBlock
  env : List EnvEntry
  parentId : Option Nat
  childrenIds : List Nat
  description : Option CStr
deriving DecidableEq, Repr

instance : Inhabited CmdNode := ⟨⟨0, none, [], [], none, [], none⟩⟩

/-- The node arena: nodes in allocation order, index 0 = synthetic root. -/
abbrev Arena := List CmdNode

/-- Update arena slot `i` in place (a write through a `struct cmd_node *`). -/
def modifyAt (a : Arena) (i : Nat) (f : CmdNode → CmdNode) : Arena :=
  a.set i (f (a.getD i default))

/-- Is the first character of the remainder an `isspace` character?
(`isspace(*line)`, false on the terminating NUL). -/
def headIsSpace : CStr → Bool
  | [] => false
  | c :: _ => cIsSpace c

/-- `get_heading_level` (`src/markdown.c`): count leading `#`, demand
1–6 of them followed by an `isspace` character, else 0. -/
def get_heading_level (l : CStr) : Nat :=
  let n := (l.takeWhile (· = '#')).length
  let rest := l.dropWhile (· = '#')
  if 0 < n ∧ n ≤ 6 ∧ headIsSpace rest then n else 0

/-- The info-string `is_code_block_start` stores into `code_info`: the text
after the three backticks, right-trimmed; `code_info` was cleared to `""`
first, so an all-blank remainder leaves the empty string. -/
def code_block_info (l : CStr) : CStr :=
  rtrim ((l.dropWhile cIsSpace).drop 3)

/-- `strstr(s, "---") != NULL`. -/
def hasTripleDash (l : CStr) : Bool :=
  l.tails.any (fun t => ("---".data).isPrefixOf t)

/-- `parse_table_row` (`src/markdown.c`), returning the binding it would
pass to `add_env_var`, or `none` when the row is rejected.  `p1` is the
`key_start` pointer, from which the C code's `strstr(key_start, "---")`
scans to the end of the row (covering `strstr(value_start, "---")`, since
`value_start` points into the same tail). -/
def parse_table_row (row : CStr) : Option (CStr × CStr) :=
  match row.dropWhile cIsSpace with
  | '|' :: r1 =>
    let p1 := r1.dropWhile cIsSpace
    let keyPart := p1.takeWhile (· ≠ '|')
    match p1.dropWhile (· ≠ '|') with
    | '|' :: r3 =>
      let p2 := r3.dropWhile cIsSpace
      let valPart := p2.takeWhile (· ≠ '|')
      let key := rtrim keyPart
      let value := rtrim valPart
      if key = [] ∨ value = [] then none
      else if hasTripleDash p1 then none
      else if strcaseeq key ("key".data) ∨ strcaseeq value ("value".data) then none
      else some (key, value)
    | _ => none
  | _ => none

/-- `add_code_block` (`src/cmd_node.c`): drop the block when the language
is unsupported; strip all trailing newlines from the content; append to
the end of the node's block list. -/
def add_code_block (a : Arena) (id : Nat) (info content : CStr) : Arena :=
  if is_language_supported info then
    modifyAt a id (fun n =>
      { n with codeBlocks :=
          n.codeBlocks ++ [⟨info, ((content.reverse.dropWhile (· = '\n')).reverse)⟩] })
  else a

/-- `add_env_var` (`src/cmd_node.c`): push the new entry on the *front* of
the node's `env` list. -/
def add_env_var (a : Arena) (id : Nat) (key value : CStr) : Arena :=
  modifyAt a id (fun n => { n with env := ⟨key, value⟩ :: n.env })

/-- The parent-selection loop of the heading branch of
`parse_markdown_content`: climb `parent` pointers from `current` while the
candidate is neither NULL nor the root and its level is `>=` the new
heading's level; a NULL result falls back to the root.  `fuel` makes the
loop a total function; `parse` passes the arena size, which the arena
invariant proves sufficient. -/
def climbParent (a : Arena) : Nat → Nat → Nat → Nat
  | 0, pid, _ => pid
  | fuel + 1, pid, lvl =>
      if pid = 0 then pid
      else
        match a.getD pid default with
        | n =>
          if lvl ≤ n.level then
            match n.parentId with
            | some p => climbParent a fuel p lvl
            | none => 0
          else pid

/-- The mutable locals of the `while (line)` loop of
`parse_markdown_content`: the arena under construction, the `current`
node pointer, `in_code_block`, `code_buffer` (`none` = NULL), `code_info`
and `in_table`. -/
structure PState where
  arena : Arena
  currentId : Nat
  inCode : Bool
  codeBuffer : Option CStr
  codeInfo : CStr
  inTable : Bool
deriving Repr

/-- The single-trailing-newline strip performed when a fence closes:
`if (code_size > 0 && code_buffer[code_size - 1] == '\n') ...`. -/
def stripOneNL (buf : CStr) : CStr :=
  if buf.getLast? = some '\n' then buf.dropLast else buf

/-- The fence-closing branch of the line loop: strip one trailing newline
from the accumulated buffer and hand it to `add_code_block` (a NULL
buffer—no body lines—adds nothing), then leave code mode. -/
def closeFence (st : PState) : PState :=
  let arena' :=
    match st.codeBuffer with
    | none => st.arena
    | some buf => add_code_block st.arena st.currentId st.codeInfo (stripOneNL buf)
  { st with arena := arena', codeBuffer := none, inCode := false }

/-- The body branch of code mode: append the raw line (not the trimmed
one) plus `'\n'` to the buffer (`realloc` assumed to succeed). -/
def appendCodeLine (st : PState) (line : CStr) : PState :=
  { st with codeBuffer := some ((st.codeBuffer.getD []) ++ line ++ ['\n']) }

/-- The heading branch: create the node, climb to the attachment parent,
append as last child, make the new node current. -/
def openHeading (st : PState) (trimmed : CStr) : PState :=
  let lvl := get_heading_level trimmed
  let text := (trimmed.drop lvl).dropWhile cIsSpace
  let parentId := climbParent st.arena st.arena.length st.currentId lvl
  let newId := st.arena.length
  let node : CmdNode := ⟨lvl, some text, [], [], some parentId, [], none⟩
  let arena' := modifyAt (st.arena ++ [node]) parentId
    (fun p => { p with childrenIds := p.childrenIds ++ [newId] })
  { st with arena := arena', currentId := newId }

/-- The fence-opening branch: enter code mode and record the info-string
(`code_info[0] = '\0'; is_code_block_start(trimmed, code_info)`). -/
def openFence (st : PState) (trimmed : CStr) : PState :=
  { st with inCode := true, codeInfo := code_block_info trimmed }

/-- The table branch: the first `|` line only sets `in_table` (header
row); later `|` lines without `---` are parsed as binding rows. -/
def tableLine (st : PState) (trimmed : CStr) : PState :=
  if !st.inTable then { st with inTable := true }
  else if !hasTripleDash trimmed then
    match parse_table_row trimmed with
    | some kv => { st with arena := add_env_var st.arena st.currentId kv.1 kv.2 }
    | none => st
  else st

/-- The description branch: first plain line under the current node. -/
def setDescription (st : PState) (trimmed : CStr) : PState :=
  { st with arena := modifyAt st.arena st.currentId (fun n => { n with description := some trimmed }) }

/-- One iteration of the line loop of `parse_markdown_content` on a single
`strtok` token, dispatching to the branch functions above in the order of
the C `if`/`else if` chain. -/
def parseStep (st : PState) (line : CStr) : PState :=
  let trimmed := line.dropWhile cIsSpace
  if st.inCode then
    if isFence trimmed then closeFence st
    else appendCodeLine st line
  else if 0 < get_heading_level trimmed then openHeading st trimmed
  else if isFence trimmed then openFence st trimmed
  else if trimmed.head? = some '|' then tableLine st trimmed
  else if trimmed = [] then { st with inTable := false }
  else if !st.inTable ∧ (st.arena.getD st.currentId default).description = none then
    setDescription st trimmed
  else st

/-- Initial parser state: a fresh root node at level 0. -/
def initPState : PState :=
  ⟨[⟨0, none, [], [], none, [], none⟩], 0, false, none, [], false⟩

/-- `parse_markdown_content` (`src/markdown.c`): tokenise with
`strtok(buffer, "\n")` and run the line loop; a leftover unterminated
code buffer is discarded. -/
def parse_markdown_content (content : CStr) : Arena :=
  ((strtokLines content).foldl parseStep initPState).arena

/-- The process environment, mutated by `setenv`. -/
def EnvState := CStr → Option CStr

/-- `setenv(key, value, 1)`: overwrite semantics. -/
def setenv (key value : CStr) (e : EnvState) : EnvState :=
  fun x => if x = key then some value else e x

/-- Apply one node's `env` list head-to-tail, as the inner `while (env)`
loop of `find_and_execute_command` does. -/
def setEnvList (l : List EnvEntry) (e : EnvState) : EnvState :=
  l.foldl (fun acc en => setenv en.key en.value acc) e

/-- The ancestor-collection loop of `find_and_execute_command`: push the
resolved node, then each `parent`, onto `stack` until NULL.  The resulting
list is leaf-first.  `fuel` totalises the loop; `find_and_execute` passes
the arena size. -/
def collectUp (a : Arena) : Nat → Nat → List Nat
  | 0, _ => []
  | fuel + 1, i =>
      i :: (match (a.getD i default).parentId with
            | none => []
            | some p => collectUp a fuel p)

/-- The environment phase of `find_and_execute_command`: apply the
collected stack from its top (root) down to the resolved node. -/
def apply_env_chain (a : Arena) (id : Nat) (e0 : EnvState) : EnvState :=
  ((collectUp a a.length id).reverse).foldl
    (fun e i => setEnvList (a.getD i default).env e) e0

/-- `execute_code_blocks` (`src/cmd_node.c`), instrumented with the list of
blocks for which a child process is actually spawned.  Returns the C
function's `int` result (1 = all blocks succeeded, 0 = failure) paired
with the spawned blocks.  A missing registry entry aborts with 0 before
spawning; a nonzero child status aborts with 0 after its spawn.  (In
parsed trees `info`/`content` are never NULL, so the C guard
`block->info && block->content` is always taken.) -/
def execute_code_blocks (statusOf : CodeBlock → Nat) : List CodeBlock → Nat × List CodeBlock
  | [] => (1, [])
  | b :: rest =>
      match get_language_config b.info with
      | none => (0, [])
      | some _ =>
          if statusOf b ≠ 0 then (0, [b])
          else
            let r := execute_code_blocks statusOf rest
            (r.1, b :: r.2)

/-- The tail of `find_and_execute_command` (`src/markdown.c` lines
321–338), starting from the already-resolved node: set the accumulated
environment root-to-leaf, then execute the node's code blocks.  (The
path-search phase that produces the resolved node is not modelled; every
claim below quantifies over an already-resolved node.)  Returns the C
`int` result, the environment the spawned children observe, and the
spawned blocks. -/
def find_and_execute_from_resolved (a : Arena) (id : Nat)
    (statusOf : CodeBlock → Nat) (e0 : EnvState) :
    Nat × EnvState × List CodeBlock :=
  let e := apply_env_chain a id e0
  let r := execute_code_blocks statusOf (a.getD id default).codeBlocks
  (r.1, e, r.2)

/-- `main`'s translation of the `find_and_execute_command` result into the
process exit code: `result = find_and_execute_command(...) ? 0 : 1`
(`src/main.c` line 851). -/
def main_exit_code (r : Nat) : Nat :=
  if r ≠ 0 then 0 else 1

/-- The empty process environment, used to instantiate witnesses. -/
def emptyEnv : EnvState := fun _ => none

/-- The `env` list a node ends up with after its table rows (given in
document order) have each been pushed by `add_env_var`: since
`add_env_var` pushes on the front, the result is the reverse of document
order. -/
def envOfRows (rows : List EnvEntry) : List EnvEntry :=
  rows.foldl (fun acc r => r :: acc) []

/-! ### Invariant predicates used by the parser correctness proofs -/

/-- Join lines, each terminated by a newline (the shape of a nonempty
`code_buffer`). -/
def joinNL : List CStr → CStr
  | [] => []
  | l :: ls => l ++ '\n' :: joinNL ls

/-- Join lines separated (not terminated) by single newlines (the shape of
a stored code block's `content`). -/
def joinSep : List CStr → CStr
  | [] => []
  | [l] => l
  | l :: ls => l ++ '\n' :: joinSep ls

/-- A line that can sit inside a `code_buffer`: a nonempty `strtok` token
that did not close the fence. -/
def LineOK (l : CStr) : Prop :=
  l ≠ [] ∧ '\n' ∉ l ∧ isFence (l.dropWhile cIsSpace) = false

/-- Shape of a stored `code_info`: produced by right-trimming a newline-free
token remainder. -/
def InfoOK (s : CStr) : Prop :=
  '\n' ∉ s ∧ rtrim s = s

/-- Shape of a live (non-NULL) `code_buffer`. -/
def BufOK (buf : CStr) : Prop :=
  ∃ ls, ls ≠ [] ∧ (∀ l ∈ ls, LineOK l) ∧ buf = joinNL ls

/-- Invariant of a stored code block: its language is in the registry and
its content is a newline-join of fence-body lines. -/
def BlockOK (b : CodeBlock) : Prop :=
  is_language_supported b.info = true ∧ InfoOK b.info ∧
  ∃ ls, ls ≠ [] ∧ (∀ l ∈ ls, LineOK l) ∧ b.content = joinSep ls

/-- Structural invariant of the node arena built by the parser. -/
structure ArenaInv (a : Arena) : Prop where
  len_pos : 0 < a.length
  root_level : (a.getD 0 default).level = 0
  root_parent : (a.getD 0 default).parentId = none
  level_le : ∀ i, i < a.length → (a.getD i default).level ≤ 6
  level_pos : ∀ i, 0 < i → i < a.length → 1 ≤ (a.getD i default).level
  parent_ok : ∀ i, 0 < i → i < a.length →
    ∃ p, (a.getD i default).parentId = some p ∧ p < i ∧
      (a.getD p default).level < (a.getD i default).level
  children_ok : ∀ i, i < a.length → ∀ j ∈ (a.getD i default).childrenIds,
    j < a.length ∧ (a.getD i default).level < (a.getD j default).level
  blocks_ok : ∀ i, i < a.length → ∀ b ∈ (a.getD i default).codeBlocks, BlockOK b

/-- Invariant of the whole parser state. -/
structure StInv (st : PState) : Prop where
  arena : ArenaInv st.arena
  current_lt : st.currentId < st.arena.length
  inf : InfoOK st.codeInfo
  buf : ∀ b, st.codeBuffer = some b → BufOK b

/-! ### Environment lemmas -/

theorem setEnvList_nil (e : EnvState) : setEnvList [] e = e := rfl

theorem setEnvList_cons (en : EnvEntry) (t : List EnvEntry) (e : EnvState) :
    setEnvList (en :: t) e = setEnvList t (setenv en.key en.value e) := rfl

/-- The value `setenv`-folding a list leaves at key `k` is decided by the
last entry of the list whose key is `k` (the first entry of the reversed
list), falling back to the prior environment. -/
theorem setEnvList_lookup (l : List EnvEntry) (e : EnvState) (k : CStr) :
    setEnvList l e k =
      (l.reverse.find? (fun en => decide (en.key = k))).elim (e k) (fun en => some en.value) := by
  induction l generalizing e with
  | nil => simp [setEnvList]
  | cons en t ih =>
      rw [setEnvList_cons, ih, List.reverse_cons, List.find?_append]
      cases h : t.reverse.find? (fun en => decide (en.key = k)) with
      | some x => simp [Option.or]
      | none =>
          by_cases hk : en.key = k
          · simp [Option.or, List.find?, hk, setenv]
          · have hk' : ¬ k = en.key := fun h => hk h.symm
            simp [Option.or, List.find?, hk, setenv, hk']

/-- If every entry of `l` keyed `k` carries value `v` and at least one
such entry exists, the folded environment maps `k` to `v`. -/
theorem setEnvList_eq_of_key (l : List EnvEntry) (e : EnvState) (k v : CStr)
    (hex : ∃ en ∈ l, en.key = k)
    (hall : ∀ en ∈ l, en.key = k → en.value = v) :
    setEnvList l e k = some v := by
  rw [setEnvList_lookup]
  have hsome : (l.reverse.find? (fun en => decide (en.key = k))).isSome := by
    rw [List.find?_isSome]
    obtain ⟨en, hmem, hkey⟩ := hex
    exact ⟨en, List.mem_reverse.mpr hmem, by simp [hkey]⟩
  obtain ⟨en, hfind⟩ := Option.isSome_iff_exists.mp hsome
  have hkey : en.key = k := by simpa using List.find?_some hfind
  have hmem : en ∈ l := List.mem_reverse.mp (List.mem_of_find?_eq_some hfind)
  rw [hfind]
  simp [hall en hmem hkey]

theorem foldl_cons_acc (rows : List EnvEntry) :
    ∀ acc, rows.foldl (fun a r => r :: a) acc = rows.reverse ++ acc := by
  induction rows with
  | nil => intro acc; simp
  | cons r t ih => intro acc; simp [List.foldl_cons, ih]

theorem envOfRows_eq_reverse (rows : List EnvEntry) : envOfRows rows = rows.reverse := by
  simp [envOfRows, foldl_cons_acc]

theorem collectUp_succ (a : Arena) (fuel i : Nat) :
    collectUp a (fuel + 1) i =
      i :: (match (a.getD i default).parentId with
            | none => []
            | some p => collectUp a fuel p) := rfl

/-! ### Execution lemmas -/

theorem execute_code_blocks_nil (statusOf : CodeBlock → Nat) :
    execute_code_blocks statusOf [] = (1, []) := rfl

theorem execute_code_blocks_fail (statusOf : CodeBlock → Nat) (b : CodeBlock)
    (rest : List CodeBlock) (c : LanguageConfig)
    (hcfg : get_language_config b.info = some c) (hfail : statusOf b ≠ 0) :
    execute_code_blocks statusOf (b :: rest) = (0, [b]) := by
  simp [execute_code_blocks, hcfg, hfail]

/-! ### Claims about the execution engine (C1, C2, C3, C9) -/

/-- C1, counterexample: a resolved node with two `sh` blocks whose first
child exits with status 7.  The process exit code is 1, not 7, and the
second block is never spawned; so the claim's "exit code mirrors the
first failing block's exit status" is false on the code. -/
theorem exec_exit_mirrors_status_cex :
    (let a : Arena :=
      [⟨0, none, [⟨"sh".data, "exit 7".data⟩, ⟨"sh".data, "echo ok".data⟩], [], none, [], none⟩];
     let statusOf : CodeBlock → Nat := fun b => if b.content = "exit 7".data then 7 else 0;
     statusOf ⟨"sh".data, "exit 7".data⟩ = 7 ∧
     (find_and_execute_from_resolved a 0 statusOf emptyEnv).2.2 = [⟨"sh".data, "exit 7".data⟩] ∧
     main_exit_code (find_and_execute_from_resolved a 0 statusOf emptyEnv).1 = 1 ∧
     main_exit_code (find_and_execute_from_resolved a 0 statusOf emptyEnv).1 ≠
       statusOf ⟨"sh".data, "exit 7".data⟩) := by
  decide

/-- C1 (amended): when the first code block of a resolved node fails
(nonzero child status), no later block is spawned, `execute_code_blocks`
returns 0, and the process exit code is the fixed value 1 — not the
failing block's status. -/
theorem exec_stops_after_first_failure (a : Arena) (id : Nat)
    (statusOf : CodeBlock → Nat) (e0 : EnvState) (b : CodeBlock) (rest : List CodeBlock)
    (hblocks : (a.getD id default).codeBlocks = b :: rest)
    (hcfg : (get_language_config b.info).isSome)
    (hfail : statusOf b ≠ 0) :
    (find_and_execute_from_resolved a id statusOf e0).2.2 = [b] ∧
    (find_and_execute_from_resolved a id statusOf e0).1 = 0 ∧
    main_exit_code (find_and_execute_from_resolved a id statusOf e0).1 = 1 := by
  obtain ⟨c, hc⟩ := Option.isSome_iff_exists.mp hcfg
  have hexec := execute_code_blocks_fail statusOf b rest c hc hfail
  show (execute_code_blocks statusOf (a.getD id default).codeBlocks).2 = [b] ∧
    (execute_code_blocks statusOf (a.getD id default).codeBlocks).1 = 0 ∧
    main_exit_code (execute_code_blocks statusOf (a.getD id default).codeBlocks).1 = 1
  rw [hblocks, hexec]
  exact ⟨rfl, rfl, rfl⟩

/-- C1, witness for the amended theorem. -/
theorem exec_stops_after_first_failure_witness :
    (let a : Arena :=
      [⟨0, none, [⟨"sh".data, "exit 7".data⟩, ⟨"sh".data, "echo ok".data⟩], [], none, [], none⟩];
     let statusOf : CodeBlock → Nat := fun b => if b.content = "exit 7".data then 7 else 0;
     (a.getD 0 default).codeBlocks =
       (⟨"sh".data, "exit 7".data⟩ : CodeBlock) :: [(⟨"sh".data, "echo ok".data⟩ : CodeBlock)] ∧
     (get_language_config ("sh".data)).isSome ∧
     statusOf ⟨"sh".data, "exit 7".data⟩ ≠ 0 ∧
     ((find_and_execute_from_resolved a 0 statusOf emptyEnv).2.2 = [⟨"sh".data, "exit 7".data⟩] ∧
      (find_and_execute_from_resolved a 0 statusOf emptyEnv).1 = 0 ∧
      main_exit_code (find_and_execute_from_resolved a 0 statusOf emptyEnv).1 = 1)) := by
  refine ⟨by decide, by decide, by decide, ?_⟩
  exact exec_stops_after_first_failure _ 0 _ emptyEnv
    ⟨"sh".data, "exit 7".data⟩ [⟨"sh".data, "echo ok".data⟩] (by decide) (by decide) (by decide)

/-- C2, counterexample: executing a resolved node with zero code blocks
completes with process exit code 0 (success) and spawns nothing — there
is no `NoCodeBlocks` failure in the code, contradicting the claim of a
distinct nonzero exit code. -/
theorem no_code_blocks_exit_zero_cex :
    (find_and_execute_from_resolved [⟨0, none, [], [], none, [], none⟩] 0
        (fun _ => 0) emptyEnv).1 = 1 ∧
    main_exit_code (find_and_execute_from_resolved [⟨0, none, [], [], none, [], none⟩] 0
        (fun _ => 0) emptyEnv).1 = 0 := by
  decide

/-- C2 (amended): a resolved node with zero code blocks executes
vacuously: `execute_code_blocks` returns success (1), the process exit
code is 0, and no child is spawned; no error is surfaced. -/
theorem no_code_blocks_succeeds (a : Arena) (id : Nat)
    (statusOf : CodeBlock → Nat) (e0 : EnvState)
    (hblocks : (a.getD id default).codeBlocks = []) :
    (find_and_execute_from_resolved a id statusOf e0).1 = 1 ∧
    main_exit_code (find_and_execute_from_resolved a id statusOf e0).1 = 0 ∧
    (find_and_execute_from_resolved a id statusOf e0).2.2 = [] := by
  show (execute_code_blocks statusOf (a.getD id default).codeBlocks).1 = 1 ∧
    main_exit_code (execute_code_blocks statusOf (a.getD id default).codeBlocks).1 = 0 ∧
    (execute_code_blocks statusOf (a.getD id default).codeBlocks).2 = []
  rw [hblocks, execute_code_blocks_nil]
  exact ⟨rfl, rfl, rfl⟩

/-- C2, witness for the amended theorem. -/
theorem no_code_blocks_succeeds_witness :
    ((([⟨0, none, [], [], none, [], none⟩] : Arena).getD 0 default).codeBlocks = [] ∧
     ((find_and_execute_from_resolved [⟨0, none, [], [], none, [], none⟩] 0
         (fun _ => 0) emptyEnv).1 = 1 ∧
      main_exit_code (find_and_execute_from_resolved [⟨0, none, [], [], none, [], none⟩] 0
         (fun _ => 0) emptyEnv).1 = 0 ∧
      (find_and_execute_from_resolved [⟨0, none, [], [], none, [], none⟩] 0
         (fun _ => 0) emptyEnv).2.2 = [])) :=
  ⟨by decide, no_code_blocks_succeeds _ 0 _ emptyEnv (by decide)⟩

/-- C3 (confirmed): environment bindings are applied root-to-leaf, so
when the resolved node itself binds key `k` (every such binding carrying
value `v`), the environment every spawned child observes maps `k` to
`v`, regardless of what any ancestor bound `k` to. -/
theorem env_leaf_binding_wins (a : Arena) (id : Nat)
    (statusOf : CodeBlock → Nat) (e0 : EnvState) (k v : CStr)
    (hid : id < a.length)
    (hex : ∃ en ∈ (a.getD id default).env, en.key = k)
    (hall : ∀ en ∈ (a.getD id default).env, en.key = k → en.value = v) :
    (find_and_execute_from_resolved a id statusOf e0).2.1 k = some v := by
  have hlen : a.length ≠ 0 := Nat.not_eq_zero_of_lt hid
  obtain ⟨m, hm⟩ := Nat.exists_eq_succ_of_ne_zero hlen
  show apply_env_chain a id e0 k = some v
  rw [apply_env_chain, hm, collectUp_succ, List.reverse_cons, List.foldl_append]
  exact setEnvList_eq_of_key _ _ k v hex hall

/-- C3, witness: ancestor binds `A=1`, the resolved child binds `A=2`;
the child process observes `A=2`. -/
theorem env_leaf_binding_wins_witness :
    (let a : Arena :=
      [⟨0, none, [], [⟨"A".data, "1".data⟩], none, [1], none⟩,
       ⟨1, some "c".data, [], [⟨"A".data, "2".data⟩], some 0, [], none⟩];
     1 < a.length ∧
     (∃ en ∈ (a.getD 1 default).env, en.key = "A".data) ∧
     (find_and_execute_from_resolved a 1 (fun _ => 0) emptyEnv).2.1 ("A".data) =
       some ("2".data)) := by
  refine ⟨by decide, by decide, ?_⟩
  exact env_leaf_binding_wins _ 1 _ emptyEnv _ _ (by decide) (by decide) (by decide)

/-- C9, counterexample: one table with rows `A=1` then `A=2` (after the
header row).  The stored `env` list is in *reverse* document order, and
the value spawned children observe for `A` is `1` — the earlier row —
not `2` as the claim asserts. -/
theorem env_insertion_order_cex :
    ((parse_markdown_content ("| k | v |\n| A | 1 |\n| A | 2 |".data)).getD 0 default).env =
      [⟨"A".data, "2".data⟩, ⟨"A".data, "1".data⟩] ∧
    ((parse_markdown_content ("| k | v |\n| A | 1 |\n| A | 2 |".data)).getD 0 default).env ≠
      [⟨"A".data, "1".data⟩, ⟨"A".data, "2".data⟩] ∧
    apply_env_chain (parse_markdown_content ("| k | v |\n| A | 1 |\n| A | 2 |".data)) 0
        emptyEnv ("A".data) = some ("1".data) ∧
    ("1".data : CStr) ≠ "2".data := by
  decide

/-- C9 (amended): a node's `env` list holds its table rows in reverse
insertion order (`add_env_var` pushes on the front), so execution-time
`setenv` application walks them newest-first and, for duplicate keys
within one node, the *first* (earliest) row's value is applied last and
is the one spawned children observe. -/
theorem env_duplicate_first_row_wins (rows : List EnvEntry) (e : EnvState)
    (k : CStr) (en : EnvEntry)
    (hfind : rows.find? (fun r => decide (r.key = k)) = some en) :
    setEnvList (envOfRows rows) e k = some en.value := by
  rw [envOfRows_eq_reverse, setEnvList_lookup, List.reverse_reverse, hfind]
  rfl

/-- C9, witness: rows `A=1`, `A=2` in document order; the effective value
is `1`. -/
theorem env_duplicate_first_row_wins_witness :
    (([⟨"A".data, "1".data⟩, ⟨"A".data, "2".data⟩] : List EnvEntry).find?
        (fun r => decide (r.key = "A".data)) = some (⟨"A".data, "1".data⟩ : EnvEntry) ∧
     setEnvList (envOfRows [⟨"A".data, "1".data⟩, ⟨"A".data, "2".data⟩]) emptyEnv ("A".data) =
       some ("1".data)) :=
  ⟨by decide, env_duplicate_first_row_wins _ emptyEnv _ (⟨"A".data, "1".data⟩ : EnvEntry) (by decide)⟩

/-! ### Generic list helper lemmas -/

theorem dropWhile_idem (p : Char → Bool) (l : CStr) :
    (l.dropWhile p).dropWhile p = l.dropWhile p := by
  induction l with
  | nil => rfl
  | cons c t ih =>
      by_cases h : p c
      · simpa [List.dropWhile_cons_of_pos h] using ih
      · simp [List.dropWhile_cons_of_neg h]

theorem rtrim_idem (l : CStr) : rtrim (rtrim l) = rtrim l := by
  simp [rtrim, dropWhile_idem]

theorem mem_rtrim {c : Char} {l : CStr} (h : c ∈ rtrim l) : c ∈ l := by
  have h1 : c ∈ l.reverse.dropWhile cIsSpace := List.mem_reverse.mp h
  exact List.mem_reverse.mp ((List.dropWhile_sublist cIsSpace).subset h1)

theorem mem_dropWhile {c : Char} {p : Char → Bool} {l : CStr} (h : c ∈ l.dropWhile p) : c ∈ l :=
  (List.dropWhile_sublist p).subset h

theorem mem_drop {c : Char} {n : Nat} {l : CStr} (h : c ∈ l.drop n) : c ∈ l :=
  (List.drop_sublist n l).subset h

theorem getD_append_lt (a : Arena) (n : CmdNode) {i : Nat} (h : i < a.length) :
    (a ++ [n]).getD i default = a.getD i default := by
  simp [List.getD_eq_getElem?_getD, List.getElem?_append_left h]

theorem getD_append_len (a : Arena) (n : CmdNode) :
    (a ++ [n]).getD a.length default = n := by
  simp [List.getD_eq_getElem?_getD, List.getElem?_append_right (Nat.le_refl a.length)]

theorem length_modifyAt (a : Arena) (i : Nat) (f : CmdNode → CmdNode) :
    (modifyAt a i f).length = a.length := by
  simp [modifyAt]

theorem getD_modifyAt_self (a : Arena) (f : CmdNode → CmdNode) {i : Nat} (h : i < a.length) :
    (modifyAt a i f).getD i default = f (a.getD i default) := by
  simp [modifyAt, List.getD_eq_getElem?_getD, List.getElem?_set_self h]

theorem getD_modifyAt_ne (a : Arena) (f : CmdNode → CmdNode) {i j : Nat} (h : j ≠ i) :
    (modifyAt a i f).getD j default = a.getD j default := by
  simp [modifyAt, List.getD_eq_getElem?_getD, List.getElem?_set_ne (fun he => h he.symm)]

/-! ### Lemmas about `joinNL`, `joinSep` and trailing-newline stripping -/

theorem joinNL_append_single (ls : List CStr) (l : CStr) :
    joinNL (ls ++ [l]) = joinNL ls ++ (l ++ ['\n']) := by
  induction ls with
  | nil => simp [joinNL]
  | cons x t ih => simp [joinNL, ih]

theorem joinSep_cons_of_ne (l : CStr) {ls : List CStr} (h : ls ≠ []) :
    joinSep (l :: ls) = l ++ '\n' :: joinSep ls := by
  cases ls with
  | nil => exact absurd rfl h
  | cons y t => rfl

theorem joinNL_eq_joinSep (ls : List CStr) (h : ls ≠ []) :
    joinNL ls = joinSep ls ++ ['\n'] := by
  induction ls with
  | nil => exact absurd rfl h
  | cons l t ih =>
      cases t with
      | nil => simp [joinNL, joinSep]
      | cons y u =>
          rw [joinNL, ih (by simp), joinSep_cons_of_ne l (by simp)]
          simp

theorem joinSep_getLast (ls : List CStr) (hne : ls ≠ [])
    (hok : ∀ l ∈ ls, l ≠ [] ∧ '\n' ∉ l) :
    ∃ c, (joinSep ls).getLast? = some c ∧ c ≠ '\n' := by
  induction ls with
  | nil => exact absurd rfl hne
  | cons l t ih =>
      cases t with
      | nil =>
          obtain ⟨hl, hnl⟩ := hok l (by simp)
          obtain ⟨c, hc⟩ := Option.isSome_iff_exists.mp (List.getLast?_isSome.mpr hl)
          refine ⟨c, by simpa [joinSep] using hc, ?_⟩
          intro hcn
          exact hnl (hcn ▸ List.mem_of_getLast?_eq_some hc)
      | cons y u =>
          obtain ⟨c, hc, hcn⟩ := ih (by simp)
            (fun l hl => hok l (List.mem_cons_of_mem _ hl))
          refine ⟨c, ?_, hcn⟩
          rw [joinSep_cons_of_ne l (by simp), List.getLast?_append]
          have hne2 : joinSep (y :: u) ≠ [] := by
            intro h0
            rw [h0] at hc
            simp at hc
          rw [List.getLast?_cons, hc]
          simp

theorem stripOneNL_concat (x : CStr) : stripOneNL (x ++ ['\n']) = x := by
  simp [stripOneNL, List.getLast?_concat]

theorem stripAllNL_eq_self {l : CStr} {c : Char} (h : l.getLast? = some c) (hc : c ≠ '\n') :
    (l.reverse.dropWhile (· = '\n')).reverse = l := by
  have hrev : l.reverse.head? = some c := by rw [List.head?_reverse, h]
  cases hl : l.reverse with
  | nil => rw [hl] at hrev; simp at hrev
  | cons d t =>
      rw [hl] at hrev
      have hdc : d = c := by simpa using hrev
      have : (d :: t).dropWhile (· = '\n') = d :: t :=
        List.dropWhile_cons_of_neg (by simp [hdc, hc])
      rw [this, ← hl, List.reverse_reverse]

/-! ### Lemmas about `strtok` tokenisation -/

theorem strtokGo_tokens (cs : CStr) :
    ∀ acc, '\n' ∉ acc → ∀ t ∈ strtokGo acc cs, t ≠ [] ∧ '\n' ∉ t := by
  induction cs with
  | nil =>
      intro acc hacc t ht
      by_cases h : acc = []
      · simp [strtokGo, h] at ht
      · rw [strtokGo, if_neg h] at ht
        simp only [List.mem_singleton] at ht
        subst ht
        constructor
        · simpa using h
        · simpa using hacc
  | cons c rest ih =>
      intro acc hacc t ht
      by_cases hcn : c = '\n'
      · rw [strtokGo, if_pos hcn] at ht
        by_cases h : acc = []
        · rw [if_pos h] at ht
          exact ih [] (by simp) t ht
        · rw [if_neg h] at ht
          rcases List.mem_cons.mp ht with h1 | h1
          · subst h1
            exact ⟨by simpa using h, by simpa using hacc⟩
          · exact ih [] (by simp) t h1
      · rw [strtokGo, if_neg hcn] at ht
        refine ih (c :: acc) ?_ t ht
        simp only [List.mem_cons, not_or]
        exact ⟨fun h => hcn h.symm, hacc⟩

theorem strtokLines_tokens (cs : CStr) : ∀ t ∈ strtokLines cs, t ≠ [] ∧ '\n' ∉ t :=
  strtokGo_tokens cs [] (by simp)

theorem strtokGo_no_newline (u : CStr) (hnl : '\n' ∉ u) :
    ∀ acc, strtokGo acc u = if acc.reverse ++ u = [] then [] else [acc.reverse ++ u] := by
  induction u with
  | nil => intro acc; by_cases h : acc = [] <;> simp [strtokGo, h]
  | cons c rest ih =>
      intro acc
      have hcn : ¬ c = '\n' := fun h => hnl (by simp [h])
      rw [strtokGo, if_neg hcn, ih (fun h => hnl (List.mem_cons_of_mem _ h)) (c :: acc)]
      simp

theorem strtokGo_append_newline (u : CStr) (hnl : '\n' ∉ u) (v : CStr) :
    ∀ acc, strtokGo acc (u ++ '\n' :: v) =
      (if acc.reverse ++ u = [] then [] else [acc.reverse ++ u]) ++ strtokGo [] v := by
  induction u with
  | nil =>
      intro acc
      by_cases h : acc = [] <;> simp [strtokGo, h]
  | cons c rest ih =>
      intro acc
      have hcn : ¬ c = '\n' := fun h => hnl (by simp [h])
      rw [List.cons_append, strtokGo, if_neg hcn,
        ih (fun h => hnl (List.mem_cons_of_mem _ h)) (c :: acc)]
      simp

theorem strtokLines_append_newline (u : CStr) (hnl : '\n' ∉ u) (v : CStr) :
    strtokLines (u ++ '\n' :: v) =
      (if u = [] then [] else [u]) ++ strtokLines v := by
  rw [strtokLines, strtokGo_append_newline u hnl v []]
  simp [strtokLines]

theorem strtokLines_no_newline (u : CStr) (hne : u ≠ []) (hnl : '\n' ∉ u) :
    strtokLines u = [u] := by
  rw [strtokLines, strtokGo_no_newline u hnl []]
  simp [hne]

theorem strtokLines_joinNL (ls : List CStr) (hok : ∀ l ∈ ls, l ≠ [] ∧ '\n' ∉ l) (z : CStr) :
    strtokLines (joinNL ls ++ z) = ls ++ strtokLines z := by
  induction ls with
  | nil => simp [joinNL]
  | cons l t ih =>
      obtain ⟨hl, hnl⟩ := hok l (by simp)
      rw [joinNL, List.append_assoc, List.cons_append,
        strtokLines_append_newline l hnl, if_neg hl,
        ih (fun x hx => hok x (List.mem_cons_of_mem _ hx))]
      simp

/-! ### Heading level and parent-climb lemmas -/

theorem get_heading_level_le_six (l : CStr) : get_heading_level l ≤ 6 := by
  simp only [get_heading_level]
  split
  · next h => exact h.2.1
  · omega

theorem climbParent_succ (a : Arena) (fuel pid lvl : Nat) :
    climbParent a (fuel + 1) pid lvl =
      if pid = 0 then pid
      else
        if lvl ≤ (a.getD pid default).level then
          match (a.getD pid default).parentId with
          | some p => climbParent a fuel p lvl
          | none => 0
        else pid := rfl

/-- Post-condition of the parent-selection loop: the chosen parent is a
valid index whose level is strictly below the new heading's level. -/
theorem climbParent_lt (a : Arena) (h : ArenaInv a) (lvl : Nat) (hlvl : 1 ≤ lvl) :
    ∀ fuel pid, pid < a.length → pid < fuel →
      climbParent a fuel pid lvl < a.length ∧
      (a.getD (climbParent a fuel pid lvl) default).level < lvl := by
  intro fuel
  induction fuel with
  | zero => intro pid hp hf; omega
  | succ fuel ih =>
      intro pid hp hf
      rw [climbParent_succ]
      by_cases h0 : pid = 0
      · rw [if_pos h0, h0]
        exact ⟨h.len_pos, by rw [h.root_level]; omega⟩
      · rw [if_neg h0]
        by_cases hle : lvl ≤ (a.getD pid default).level
        · rw [if_pos hle]
          obtain ⟨p, hpar, hplt, _⟩ := h.parent_ok pid (Nat.pos_of_ne_zero h0) hp
          rw [hpar]
          exact ih p (Nat.lt_trans hplt hp) (by omega)
        · rw [if_neg hle]
          exact ⟨hp, by omega⟩

/-! ### Invariant preservation, skeleton-preserving updates -/

/-- A `modifyAt` that can only change `env` and `description` (the table
and description branches) keeps the arena invariant. -/
theorem arenaInv_modify_skeleton (a : Arena) (i : Nat) (f : CmdNode → CmdNode)
    (hlevel : ∀ n, (f n).level = n.level)
    (hparent : ∀ n, (f n).parentId = n.parentId)
    (hchildren : ∀ n, (f n).childrenIds = n.childrenIds)
    (hblocks : ∀ n, (f n).codeBlocks = n.codeBlocks)
    (h : ArenaInv a) : ArenaInv (modifyAt a i f) := by
  have hget : ∀ j,
      ((modifyAt a i f).getD j default).level = (a.getD j default).level ∧
      ((modifyAt a i f).getD j default).parentId = (a.getD j default).parentId ∧
      ((modifyAt a i f).getD j default).childrenIds = (a.getD j default).childrenIds ∧
      ((modifyAt a i f).getD j default).codeBlocks = (a.getD j default).codeBlocks := by
    intro j
    by_cases hji : j = i
    · by_cases hj : i < a.length
      · rw [hji, getD_modifyAt_self a f hj]
        exact ⟨hlevel _, hparent _, hchildren _, hblocks _⟩
      · have hmod : modifyAt a i f = a := List.set_eq_of_length_le (by omega)
        rw [hmod]
        exact ⟨rfl, rfl, rfl, rfl⟩
    · rw [getD_modifyAt_ne a f hji]
      exact ⟨rfl, rfl, rfl, rfl⟩
  refine ⟨?_, ?_, ?_, ?_, ?_, ?_, ?_, ?_⟩
  · rw [length_modifyAt]; exact h.len_pos
  · rw [(hget 0).1]; exact h.root_level
  · rw [(hget 0).2.1]; exact h.root_parent
  · intro j hj
    rw [length_modifyAt] at hj
    rw [(hget j).1]; exact h.level_le j hj
  · intro j hj0 hj
    rw [length_modifyAt] at hj
    rw [(hget j).1]; exact h.level_pos j hj0 hj
  · intro j hj0 hj
    rw [length_modifyAt] at hj
    obtain ⟨p, hpar, hplt, hpl⟩ := h.parent_ok j hj0 hj
    exact ⟨p, by rw [(hget j).2.1]; exact hpar, hplt, by rw [(hget p).1, (hget j).1]; exact hpl⟩
  · intro j hj c hc
    rw [length_modifyAt] at hj
    rw [(hget j).2.2.1] at hc
    obtain ⟨hc1, hc2⟩ := h.children_ok j hj c hc
    exact ⟨by rw [length_modifyAt]; exact hc1, by rw [(hget j).1, (hget c).1]; exact hc2⟩
  · intro j hj b hb
    rw [length_modifyAt] at hj
    rw [(hget j).2.2.2] at hb
    exact h.blocks_ok j hj b hb

/-! ### Branch-selection lemmas for `parseStep` -/

theorem get_heading_level_nil : get_heading_level [] = 0 := rfl

theorem isFence_nil : isFence [] = false := rfl

theorem parseStep_close (st : PState) (line : CStr) (hic : st.inCode = true)
    (hf : isFence (line.dropWhile cIsSpace) = true) :
    parseStep st line = closeFence st := by
  simp [parseStep, hic, hf]

theorem parseStep_body (st : PState) (line : CStr) (hic : st.inCode = true)
    (hf : isFence (line.dropWhile cIsSpace) = false) :
    parseStep st line = appendCodeLine st line := by
  simp [parseStep, hic, hf]

theorem parseStep_heading (st : PState) (line : CStr) (hic : st.inCode = false)
    (hh : 0 < get_heading_level (line.dropWhile cIsSpace)) :
    parseStep st line = openHeading st (line.dropWhile cIsSpace) := by
  simp [parseStep, hic, hh]

theorem parseStep_fence_open (st : PState) (line : CStr) (hic : st.inCode = false)
    (hh : ¬ 0 < get_heading_level (line.dropWhile cIsSpace))
    (hf : isFence (line.dropWhile cIsSpace) = true) :
    parseStep st line = openFence st (line.dropWhile cIsSpace) := by
  simp [parseStep, hic, hh, hf]

theorem parseStep_table (st : PState) (line : CStr) (hic : st.inCode = false)
    (hh : ¬ 0 < get_heading_level (line.dropWhile cIsSpace))
    (hf : isFence (line.dropWhile cIsSpace) = false)
    (hp : (line.dropWhile cIsSpace).head? = some '|') :
    parseStep st line = tableLine st (line.dropWhile cIsSpace) := by
  simp [parseStep, hic, hh, hf, hp]

theorem parseStep_blank (st : PState) (line : CStr) (hic : st.inCode = false)
    (hb : line.dropWhile cIsSpace = []) :
    parseStep st line = { st with inTable := false } := by
  simp [parseStep, hic, hb, get_heading_level_nil, isFence_nil]

theorem parseStep_text (st : PState) (line : CStr) (hic : st.inCode = false)
    (hh : ¬ 0 < get_heading_level (line.dropWhile cIsSpace))
    (hf : isFence (line.dropWhile cIsSpace) = false)
    (hp : ¬ (line.dropWhile cIsSpace).head? = some '|')
    (hb : ¬ line.dropWhile cIsSpace = []) :
    parseStep st line =
      if !st.inTable ∧ (st.arena.getD st.currentId default).description = none then
        setDescription st (line.dropWhile cIsSpace)
      else st := by
  simp [parseStep, hic, hh, hf, hp, hb]

/-! ### Invariant preservation for each branch -/

theorem length_add_code_block (a : Arena) (i : Nat) (info content : CStr) :
    (add_code_block a i info content).length = a.length := by
  unfold add_code_block
  split
  · exact length_modifyAt a i _
  · rfl

theorem length_add_env_var (a : Arena) (i : Nat) (k v : CStr) :
    (add_env_var a i k v).length = a.length :=
  length_modifyAt a i _

/-- Appending a well-formed code block to any node keeps the arena
invariant. -/
theorem arenaInv_append_block (a : Arena) (i : Nat) (nb : CodeBlock) (hnb : BlockOK nb)
    (h : ArenaInv a) :
    ArenaInv (modifyAt a i (fun n => { n with codeBlocks := n.codeBlocks ++ [nb] })) := by
  have hget : ∀ j,
      ((modifyAt a i (fun n => { n with codeBlocks := n.codeBlocks ++ [nb] })).getD j default).level
          = (a.getD j default).level ∧
      ((modifyAt a i (fun n => { n with codeBlocks := n.codeBlocks ++ [nb] })).getD j default).parentId
          = (a.getD j default).parentId ∧
      ((modifyAt a i (fun n => { n with codeBlocks := n.codeBlocks ++ [nb] })).getD j default).childrenIds
          = (a.getD j default).childrenIds ∧
      ∀ b ∈ ((modifyAt a i (fun n => { n with codeBlocks := n.codeBlocks ++ [nb] })).getD j default).codeBlocks,
        b ∈ (a.getD j default).codeBlocks ∨ b = nb := by
    intro j
    by_cases hji : j = i
    · by_cases hj : i < a.length
      · rw [hji, getD_modifyAt_self a _ hj]
        refine ⟨rfl, rfl, rfl, ?_⟩
        intro b hb
        rcases List.mem_append.mp hb with h1 | h1
        · exact Or.inl h1
        · exact Or.inr (List.mem_singleton.mp h1)
      · have hmod : modifyAt a i (fun n => { n with codeBlocks := n.codeBlocks ++ [nb] }) = a :=
          List.set_eq_of_length_le (by omega)
        rw [hmod]
        exact ⟨rfl, rfl, rfl, fun b hb => Or.inl hb⟩
    · rw [getD_modifyAt_ne a _ hji]
      exact ⟨rfl, rfl, rfl, fun b hb => Or.inl hb⟩
  refine ⟨?_, ?_, ?_, ?_, ?_, ?_, ?_, ?_⟩
  · rw [length_modifyAt]; exact h.len_pos
  · rw [(hget 0).1]; exact h.root_level
  · rw [(hget 0).2.1]; exact h.root_parent
  · intro j hj
    rw [length_modifyAt] at hj
    rw [(hget j).1]; exact h.level_le j hj
  · intro j hj0 hj
    rw [length_modifyAt] at hj
    rw [(hget j).1]; exact h.level_pos j hj0 hj
  · intro j hj0 hj
    rw [length_modifyAt] at hj
    obtain ⟨p, hpar, hplt, hpl⟩ := h.parent_ok j hj0 hj
    exact ⟨p, by rw [(hget j).2.1]; exact hpar, hplt, by rw [(hget p).1, (hget j).1]; exact hpl⟩
  · intro j hj c hc
    rw [length_modifyAt] at hj
    rw [(hget j).2.2.1] at hc
    obtain ⟨hc1, hc2⟩ := h.children_ok j hj c hc
    exact ⟨by rw [length_modifyAt]; exact hc1, by rw [(hget j).1, (hget c).1]; exact hc2⟩
  · intro j hj b hb
    rw [length_modifyAt] at hj
    rcases (hget j).2.2.2 b hb with h1 | h1
    · exact h.blocks_ok j hj b h1
    · rw [h1]; exact hnb

theorem arenaInv_add_code_block (a : Arena) (i : Nat) (info content : CStr)
    (h : ArenaInv a)
    (hb : is_language_supported info = true →
      BlockOK ⟨info, ((content.reverse.dropWhile (· = '\n')).reverse)⟩) :
    ArenaInv (add_code_block a i info content) := by
  unfold add_code_block
  by_cases hsup : is_language_supported info
  · rw [if_pos hsup]
    exact arenaInv_append_block a i _ (hb hsup) h
  · rw [if_neg hsup]
    exact h

theorem stInv_closeFence (st : PState) (h : StInv st) : StInv (closeFence st) := by
  refine ⟨?_, ?_, ?_, ?_⟩
  · show ArenaInv (closeFence st).arena
    cases hbuf : st.codeBuffer with
    | none => simpa [closeFence, hbuf] using h.arena
    | some buf =>
        obtain ⟨ls, hne, hok, hbeq⟩ := h.buf buf hbuf
        have hstrip : stripOneNL buf = joinSep ls := by
          rw [hbeq, joinNL_eq_joinSep ls hne, stripOneNL_concat]
        have harena : (closeFence st).arena =
            add_code_block st.arena st.currentId st.codeInfo (stripOneNL buf) := by
          simp [closeFence, hbuf]
        rw [harena]
        refine arenaInv_add_code_block st.arena st.currentId _ _ h.arena ?_
        intro hsup
        obtain ⟨c, hc, hcn⟩ := joinSep_getLast ls hne (fun l hl => ⟨(hok l hl).1, (hok l hl).2.1⟩)
        have hall : ((stripOneNL buf).reverse.dropWhile (· = '\n')).reverse = joinSep ls := by
          rw [hstrip]
          exact stripAllNL_eq_self hc hcn
        exact ⟨hsup, h.inf, ls, hne, hok, by rw [hall]⟩
  · show st.currentId < (closeFence st).arena.length
    cases hbuf : st.codeBuffer with
    | none => simpa [closeFence, hbuf] using h.current_lt
    | some buf =>
        have : (closeFence st).arena.length = st.arena.length := by
          simp [closeFence, hbuf, length_add_code_block]
        rw [this]; exact h.current_lt
  · exact h.inf
  · intro b hb
    simp [closeFence] at hb

theorem stInv_appendCodeLine (st : PState) (line : CStr) (h : StInv st)
    (hl : line ≠ []) (hnl : '\n' ∉ line)
    (hnf : isFence (line.dropWhile cIsSpace) = false) :
    StInv (appendCodeLine st line) := by
  refine ⟨h.arena, h.current_lt, h.inf, ?_⟩
  intro b hb
  simp only [appendCodeLine] at hb
  have hb' : b = (st.codeBuffer.getD []) ++ line ++ ['\n'] := by
    cases hb; rfl
  cases hbuf : st.codeBuffer with
  | none =>
      refine ⟨[line], by simp, ?_, ?_⟩
      · intro l hl'
        rw [List.mem_singleton.mp hl']
        exact ⟨hl, hnl, hnf⟩
      · rw [hb', hbuf]
        simp [joinNL]
  | some old =>
      obtain ⟨ls, hne, hok, hbeq⟩ := h.buf old hbuf
      refine ⟨ls ++ [line], by simp, ?_, ?_⟩
      · intro l hl'
        rcases List.mem_append.mp hl' with h1 | h1
        · exact hok l h1
        · rw [List.mem_singleton.mp h1]
          exact ⟨hl, hnl, hnf⟩
      · rw [hb', hbuf, joinNL_append_single, hbeq]
        simp

theorem infoOK_code_block_info (l : CStr) (hnl : '\n' ∉ l) : InfoOK (code_block_info l) := by
  constructor
  · intro hmem
    exact hnl (mem_dropWhile (mem_drop (mem_rtrim hmem)))
  · exact rtrim_idem _

theorem stInv_openFence (st : PState) (trimmed : CStr) (h : StInv st)
    (hnl : '\n' ∉ trimmed) : StInv (openFence st trimmed) :=
  ⟨h.arena, h.current_lt, infoOK_code_block_info trimmed hnl, fun b hb => h.buf b hb⟩

theorem stInv_tableLine (st : PState) (trimmed : CStr) (h : StInv st) :
    StInv (tableLine st trimmed) := by
  unfold tableLine
  by_cases h1 : !st.inTable
  · rw [if_pos h1]
    exact ⟨h.arena, h.current_lt, h.inf, fun b hb => h.buf b hb⟩
  · rw [if_neg h1]
    by_cases h2 : !hasTripleDash trimmed
    · rw [if_pos h2]
      cases hrow : parse_table_row trimmed with
      | none => exact ⟨h.arena, h.current_lt, h.inf, fun b hb => h.buf b hb⟩
      | some kv =>
          refine ⟨?_, ?_, h.inf, fun b hb => h.buf b hb⟩
          · show ArenaInv (add_env_var st.arena st.currentId kv.1 kv.2)
            exact arenaInv_modify_skeleton st.arena st.currentId
              (fun n => { n with env := ⟨kv.1, kv.2⟩ :: n.env })
              (fun n => rfl) (fun n => rfl) (fun n => rfl) (fun n => rfl) h.arena
          · show st.currentId < (add_env_var st.arena st.currentId kv.1 kv.2).length
            rw [length_add_env_var]
            exact h.current_lt
    · rw [if_neg h2]
      exact ⟨h.arena, h.current_lt, h.inf, fun b hb => h.buf b hb⟩

theorem stInv_setDescription (st : PState) (trimmed : CStr) (h : StInv st) :
    StInv (setDescription st trimmed) := by
  refine ⟨?_, ?_, h.inf, fun b hb => h.buf b hb⟩
  · show ArenaInv (modifyAt st.arena st.currentId (fun n => { n with description := some trimmed }))
    exact arenaInv_modify_skeleton st.arena st.currentId
      (fun n => { n with description := some trimmed })
      (fun n => rfl) (fun n => rfl) (fun n => rfl) (fun n => rfl) h.arena
  · show st.currentId <
      (modifyAt st.arena st.currentId (fun n => { n with description := some trimmed })).length
    rw [length_modifyAt]
    exact h.current_lt

/-- Attaching a fresh heading node (level 1–6) under the climbed-to parent
keeps the arena invariant. -/
theorem arenaInv_openHeading (a : Arena) (h : ArenaInv a) (cur lvl : Nat) (text : CStr)
    (hcur : cur < a.length) (hlvl : 1 ≤ lvl) (hl6 : lvl ≤ 6) :
    ArenaInv (modifyAt
      (a ++ [⟨lvl, some text, [], [], some (climbParent a a.length cur lvl), [], none⟩])
      (climbParent a a.length cur lvl)
      (fun p => { p with childrenIds := p.childrenIds ++ [a.length] })) := by
  obtain ⟨hplt, hplevel⟩ := climbParent_lt a h lvl hlvl a.length cur hcur hcur
  set pid := climbParent a a.length cur lvl with hpiddef
  set nd : CmdNode := ⟨lvl, some text, [], [], some pid, [], none⟩ with hnd
  set a1 : Arena := a ++ [nd] with ha1
  set f : CmdNode → CmdNode := fun p => { p with childrenIds := p.childrenIds ++ [a.length] }
    with hf
  have hlen1 : a1.length = a.length + 1 := by simp [ha1]
  have hpidlt1 : pid < a1.length := by omega
  have hg_pid : (modifyAt a1 pid f).getD pid default = f (a.getD pid default) := by
    rw [getD_modifyAt_self a1 f hpidlt1, ha1, getD_append_lt a nd hplt]
  have hg_new : (modifyAt a1 pid f).getD a.length default = nd := by
    rw [getD_modifyAt_ne a1 f (Nat.ne_of_lt hplt).symm, ha1, getD_append_len a nd]
  have hg_old : ∀ j, j ≠ pid → j < a.length →
      (modifyAt a1 pid f).getD j default = a.getD j default := by
    intro j hne hj
    rw [getD_modifyAt_ne a1 f hne, ha1, getD_append_lt a nd hj]
  have hlev : ∀ j, j < a.length →
      ((modifyAt a1 pid f).getD j default).level = (a.getD j default).level := by
    intro j hj
    by_cases hje : j = pid
    · rw [hje, hg_pid, hf]
    · rw [hg_old j hje hj]
  have hpar : ∀ j, j < a.length →
      ((modifyAt a1 pid f).getD j default).parentId = (a.getD j default).parentId := by
    intro j hj
    by_cases hje : j = pid
    · rw [hje, hg_pid, hf]
    · rw [hg_old j hje hj]
  have hbl : ∀ j, j < a.length →
      ((modifyAt a1 pid f).getD j default).codeBlocks = (a.getD j default).codeBlocks := by
    intro j hj
    by_cases hje : j = pid
    · rw [hje, hg_pid, hf]
    · rw [hg_old j hje hj]
  have hlen2 : (modifyAt a1 pid f).length = a.length + 1 := by
    rw [length_modifyAt]; exact hlen1
  refine ⟨?_, ?_, ?_, ?_, ?_, ?_, ?_, ?_⟩
  · rw [hlen2]; omega
  · rw [hlev 0 h.len_pos]; exact h.root_level
  · rw [hpar 0 h.len_pos]; exact h.root_parent
  · intro j hj
    rw [hlen2] at hj
    by_cases hjl : j < a.length
    · rw [hlev j hjl]; exact h.level_le j hjl
    · have hje : j = a.length := by omega
      rw [hje, hg_new, hnd]; exact hl6
  · intro j hj0 hj
    rw [hlen2] at hj
    by_cases hjl : j < a.length
    · rw [hlev j hjl]; exact h.level_pos j hj0 hjl
    · have hje : j = a.length := by omega
      rw [hje, hg_new, hnd]; exact hlvl
  · intro j hj0 hj
    rw [hlen2] at hj
    by_cases hjl : j < a.length
    · obtain ⟨p, hp1, hp2, hp3⟩ := h.parent_ok j hj0 hjl
      have hpj : p < a.length := Nat.lt_trans hp2 hjl
      exact ⟨p, by rw [hpar j hjl]; exact hp1, hp2,
        by rw [hlev p hpj, hlev j hjl]; exact hp3⟩
    · have hje : j = a.length := by omega
      refine ⟨pid, ?_, by omega, ?_⟩
      · rw [hje, hg_new, hnd]
      · rw [hje, hg_new, hnd, hlev pid hplt]
        exact hplevel
  · intro j hj c hc
    rw [hlen2] at hj
    by_cases hjl : j < a.length
    · by_cases hje : j = pid
      · rw [hje, hg_pid, hf] at hc
        simp only [List.mem_append, List.mem_singleton] at hc
        rcases hc with hc | hc
        · obtain ⟨hc1, hc2⟩ := h.children_ok pid hplt c hc
          refine ⟨by omega, ?_⟩
          rw [hje, hlev c hc1, hlev pid hplt]
          exact hc2
        · refine ⟨by omega, ?_⟩
          rw [hje, hc, hg_new, hnd, hlev pid hplt]
          exact hplevel
      · rw [hg_old j hje hjl] at hc
        obtain ⟨hc1, hc2⟩ := h.children_ok j hjl c hc
        refine ⟨by omega, ?_⟩
        rw [hlev c hc1, hlev j hjl]
        exact hc2
    · have hje : j = a.length := by omega
      rw [hje, hg_new, hnd] at hc
      simp at hc
  · intro j hj b hb
    rw [hlen2] at hj
    by_cases hjl : j < a.length
    · rw [hbl j hjl] at hb
      exact h.blocks_ok j hjl b hb
    · have hje : j = a.length := by omega
      rw [hje, hg_new, hnd] at hb
      simp at hb

theorem stInv_openHeading (st : PState) (trimmed : CStr) (h : StInv st)
    (hpos : 0 < get_heading_level trimmed) : StInv (openHeading st trimmed) := by
  refine ⟨?_, ?_, h.inf, fun b hb => h.buf b hb⟩
  · exact arenaInv_openHeading st.arena h.arena st.currentId (get_heading_level trimmed)
      ((trimmed.drop (get_heading_level trimmed)).dropWhile cIsSpace)
      h.current_lt hpos (get_heading_level_le_six trimmed)
  · have h1 : (openHeading st trimmed).arena.length = st.arena.length + 1 := by
      simp [openHeading, length_modifyAt]
    have h2 : (openHeading st trimmed).currentId = st.arena.length := rfl
    omega

/-! ### The parser invariant holds after every parse -/

theorem stInv_parseStep (st : PState) (line : CStr) (hl : line ≠ []) (hnl : '\n' ∉ line)
    (h : StInv st) : StInv (parseStep st line) := by
  have hnltr : '\n' ∉ line.dropWhile cIsSpace := fun hm => hnl (mem_dropWhile hm)
  by_cases hic : st.inCode = true
  · by_cases hf : isFence (line.dropWhile cIsSpace) = true
    · rw [parseStep_close st line hic hf]
      exact stInv_closeFence st h
    · rw [parseStep_body st line hic (by simpa using hf)]
      exact stInv_appendCodeLine st line h hl hnl (by simpa using hf)
  · have hic' : st.inCode = false := by simpa using hic
    by_cases hh : 0 < get_heading_level (line.dropWhile cIsSpace)
    · rw [parseStep_heading st line hic' hh]
      exact stInv_openHeading st _ h hh
    · by_cases hf : isFence (line.dropWhile cIsSpace) = true
      · rw [parseStep_fence_open st line hic' hh hf]
        exact stInv_openFence st _ h hnltr
      · by_cases hp : (line.dropWhile cIsSpace).head? = some '|'
        · rw [parseStep_table st line hic' hh (by simpa using hf) hp]
          exact stInv_tableLine st _ h
        · by_cases hb : line.dropWhile cIsSpace = []
          · rw [parseStep_blank st line hic' hb]
            exact ⟨h.arena, h.current_lt, h.inf, fun b hb' => h.buf b hb'⟩
          · rw [parseStep_text st line hic' hh (by simpa using hf) hp hb]
            split
            · exact stInv_setDescription st _ h
            · exact h

theorem stInv_foldl (lines : List CStr) :
    ∀ st, (∀ l ∈ lines, l ≠ [] ∧ '\n' ∉ l) → StInv st → StInv (lines.foldl parseStep st) := by
  induction lines with
  | nil => intro st _ h; exact h
  | cons l t ih =>
      intro st hok h
      rw [List.foldl_cons]
      exact ih (parseStep st l)
        (fun x hx => hok x (List.mem_cons_of_mem _ hx))
        (stInv_parseStep st l (hok l (by simp)).1 (hok l (by simp)).2 h)

theorem stInv_init : StInv initPState := by
  refine ⟨⟨?_, rfl, rfl, ?_, ?_, ?_, ?_, ?_⟩, ?_, ⟨by decide, by decide⟩, ?_⟩
  · simp [initPState]
  · intro i hi
    simp only [initPState, List.length_singleton] at hi
    have : i = 0 := by omega
    subst this
    simp [initPState]
  · intro i hi0 hi
    simp only [initPState, List.length_singleton] at hi
    omega
  · intro i hi0 hi
    simp only [initPState, List.length_singleton] at hi
    omega
  · intro i hi j hj
    simp only [initPState, List.length_singleton] at hi
    have : i = 0 := by omega
    subst this
    simp [initPState] at hj
  · intro i hi b hb
    simp only [initPState, List.length_singleton] at hi
    have : i = 0 := by omega
    subst this
    simp [initPState] at hb
  · simp [initPState]
  · intro b hb
    simp [initPState] at hb

theorem arenaInv_parse (content : CStr) : ArenaInv (parse_markdown_content content) :=
  (stInv_foldl (strtokLines content) initPState (strtokLines_tokens content) stInv_init).arena

/-! ### Claims C4, C5 and C10 -/

/-- C4 (confirmed): in every parsed tree, every node except the synthetic
root has level at least 1, and every node's children all have level
strictly greater than the node's own level. -/
theorem heading_nesting_invariant (content : CStr) (i : Nat)
    (hi : i < (parse_markdown_content content).length) :
    (0 < i → 1 ≤ ((parse_markdown_content content).getD i default).level) ∧
    (∀ j ∈ ((parse_markdown_content content).getD i default).childrenIds,
      j < (parse_markdown_content content).length ∧
      ((parse_markdown_content content).getD i default).level <
        ((parse_markdown_content content).getD j default).level) := by
  have h := arenaInv_parse content
  exact ⟨fun h0 => h.level_pos i h0 hi, fun j hj => h.children_ok i hi j hj⟩

/-- C4, witness: `# A` with nested `## B`. -/
theorem heading_nesting_invariant_witness :
    (1 < (parse_markdown_content ("# A\n## B".data)).length ∧
     ((0 < 1 → 1 ≤ ((parse_markdown_content ("# A\n## B".data)).getD 1 default).level) ∧
      (∀ j ∈ ((parse_markdown_content ("# A\n## B".data)).getD 1 default).childrenIds,
        j < (parse_markdown_content ("# A\n## B".data)).length ∧
        ((parse_markdown_content ("# A\n## B".data)).getD 1 default).level <
          ((parse_markdown_content ("# A\n## B".data)).getD j default).level))) :=
  ⟨by decide, heading_nesting_invariant ("# A\n## B".data) 1 (by decide)⟩

/-- C5 (confirmed): every code block stored on any node of a parsed tree
has a language tag the registry recognises, so the execution engine's
registry lookup for a stored block always succeeds. -/
theorem stored_blocks_language_supported (content : CStr) (i : Nat)
    (hi : i < (parse_markdown_content content).length) (b : CodeBlock)
    (hb : b ∈ ((parse_markdown_content content).getD i default).codeBlocks) :
    is_language_supported b.info = true ∧ get_language_config b.info ≠ none := by
  have h := (arenaInv_parse content).blocks_ok i hi b hb
  refine ⟨h.1, ?_⟩
  have hs : (get_language_config b.info).isSome = true := h.1
  exact Option.isSome_iff_ne_none.mp hs

/-- C5, witness: a stored `sh` block. -/
theorem stored_blocks_language_supported_witness :
    (0 < (parse_markdown_content ("```sh\nhi\n```".data)).length ∧
     (⟨"sh".data, "hi".data⟩ : CodeBlock) ∈
       ((parse_markdown_content ("```sh\nhi\n```".data)).getD 0 default).codeBlocks ∧
     (is_language_supported ("sh".data) = true ∧ get_language_config ("sh".data) ≠ none)) :=
  ⟨by decide, by decide,
    stored_blocks_language_supported ("```sh\nhi\n```".data) 0 (by decide)
      ⟨"sh".data, "hi".data⟩ (by decide)⟩

/-- The ancestor-collection loop produces a chain of length at most
`level + 1` that ends at the root. -/
theorem collectUp_depth (a : Arena) (h : ArenaInv a) :
    ∀ fuel i, i < a.length → i < fuel →
      (collectUp a fuel i).length ≤ (a.getD i default).level + 1 ∧
      (collectUp a fuel i).getLast? = some 0 := by
  intro fuel
  induction fuel with
  | zero => intro i hi hf; omega
  | succ fuel ih =>
      intro i hi hf
      rw [collectUp_succ]
      by_cases h0 : i = 0
      · subst h0
        rw [h.root_parent]
        exact ⟨by simp, by simp⟩
      · obtain ⟨p, hpar, hplt, hpl⟩ := h.parent_ok i (Nat.pos_of_ne_zero h0) hi
        have hmatch : (match (a.getD i default).parentId with
            | none => ([] : List Nat)
            | some q => collectUp a fuel q) = collectUp a fuel p := by
          rw [hpar]
        rw [hmatch]
        have hrec := ih p (Nat.lt_trans hplt hi) (by omega)
        constructor
        · have : (collectUp a fuel p).length ≤ (a.getD p default).level + 1 := hrec.1
          simp only [List.length_cons]
          omega
        · cases hcl : collectUp a fuel p with
          | nil => rw [hcl] at hrec; simp at hrec
          | cons b t =>
              rw [hcl] at hrec
              rw [List.getLast?_cons_cons]
              exact hrec.2

/-- C10 (confirmed): node levels are at most 6 and strictly decrease up
the parent chain, so the leaf-to-root chain `find_and_execute_command`
pushes while collecting environment bindings has length at most 7 — far
below the fixed 100-entry stack — and always terminates at the root. -/
theorem ancestor_chain_bounded (content : CStr) (i : Nat)
    (hi : i < (parse_markdown_content content).length) :
    ((parse_markdown_content content).getD i default).level ≤ 6 ∧
    (collectUp (parse_markdown_content content)
        (parse_markdown_content content).length i).length ≤ 7 ∧
    (collectUp (parse_markdown_content content)
        (parse_markdown_content content).length i).length ≤ 100 ∧
    (collectUp (parse_markdown_content content)
        (parse_markdown_content content).length i).getLast? = some 0 := by
  have h := arenaInv_parse content
  have hdep := collectUp_depth _ h (parse_markdown_content content).length i hi hi
  have hle := h.level_le i hi
  exact ⟨hle, by omega, by omega, hdep.2⟩

/-- C10, witness: the node `## B` sits at depth 2 under the root. -/
theorem ancestor_chain_bounded_witness :
    (2 < (parse_markdown_content ("# A\n## B".data)).length ∧
     (((parse_markdown_content ("# A\n## B".data)).getD 2 default).level ≤ 6 ∧
      (collectUp (parse_markdown_content ("# A\n## B".data))
          (parse_markdown_content ("# A\n## B".data)).length 2).length ≤ 7 ∧
      (collectUp (parse_markdown_content ("# A\n## B".data))
          (parse_markdown_content ("# A\n## B".data)).length 2).length ≤ 100 ∧
      (collectUp (parse_markdown_content ("# A\n## B".data))
          (parse_markdown_content ("# A\n## B".data)).length 2).getLast? = some 0)) :=
  ⟨by decide, ancestor_chain_bounded ("# A\n## B".data) 2 (by decide)⟩

/-! ### Folding the parser over the body of one fenced block -/

theorem foldl_code_lines (ts : List CStr) :
    ∀ st : PState, st.inCode = true →
      (∀ t ∈ ts, isFence (t.dropWhile cIsSpace) = false) → ts ≠ [] →
      ts.foldl parseStep st =
        { st with codeBuffer := some (st.codeBuffer.getD [] ++ joinNL ts) } := by
  induction ts with
  | nil => intro st _ _ hne; exact absurd rfl hne
  | cons l t ih =>
      intro st hic hok _
      rw [List.foldl_cons, parseStep_body st l hic (hok l (by simp))]
      by_cases hte : t = []
      · subst hte
        simp [appendCodeLine, joinNL]
      · rw [ih (appendCodeLine st l) hic (fun x hx => hok x (List.mem_cons_of_mem _ hx)) hte]
        simp [appendCodeLine, joinNL]

/-- Folding the line loop over the token sequence of one fenced block —
fence line for a registry language `L`, body tokens `ts`, closing fence —
starting from the initial state yields just the root carrying the single
block `⟨L, joinSep ts⟩`. -/
theorem foldl_fence_tokens (L : CStr) (ts : List CStr)
    (hsup : is_language_supported L = true)
    (_hLnl : '\n' ∉ L) (hLrt : rtrim L = L)
    (hts : ∀ t ∈ ts, t ≠ [] ∧ '\n' ∉ t ∧ isFence (t.dropWhile cIsSpace) = false)
    (hne : ts ≠ []) :
    (((("```".data ++ L) :: (ts ++ ["```".data])).foldl parseStep initPState)).arena =
      [⟨0, none, [⟨L, joinSep ts⟩], [], none, [], none⟩] := by
  have hcons : ("```".data ++ L) = '`' :: ('`' :: ('`' :: L)) := rfl
  have htr : ("```".data ++ L).dropWhile cIsSpace = "```".data ++ L := by
    rw [hcons]
    exact List.dropWhile_cons_of_neg (by decide)
  have hh0 : get_heading_level (("```".data ++ L).dropWhile cIsSpace) = 0 := by
    rw [htr, hcons]
    have ht : ('`' :: ('`' :: ('`' :: L))).takeWhile (fun x => decide (x = '#')) = [] :=
      List.takeWhile_cons_of_neg (by decide)
    simp [get_heading_level, ht]
  have hfc : isFence (("```".data ++ L).dropWhile cIsSpace) = true := by
    rw [htr, hcons]
    simp [isFence, List.isPrefixOf]
  have hstep1 : parseStep initPState ("```".data ++ L) =
      { initPState with inCode := true, codeInfo := L } := by
    rw [parseStep_fence_open initPState ("```".data ++ L) rfl (by omega) hfc]
    have hinfo : code_block_info (("```".data ++ L).dropWhile cIsSpace) = L := by
      rw [htr]
      show rtrim ((("```".data ++ L).dropWhile cIsSpace).drop 3) = L
      rw [htr, hcons]
      show rtrim L = L
      exact hLrt
    rw [openFence, hinfo]
  rw [List.foldl_cons, hstep1, List.foldl_append]
  rw [foldl_code_lines ts _ rfl (fun t ht => (hts t ht).2.2) hne]
  have hbufeq : (({ initPState with inCode := true, codeInfo := L } : PState).codeBuffer.getD []
      ++ joinNL ts) = joinNL ts := by
    simp [initPState]
  rw [List.foldl_cons, List.foldl_nil]
  rw [parseStep_close _ ("```".data) rfl (by decide)]
  have hstrip1 : stripOneNL (joinNL ts) = joinSep ts := by
    rw [joinNL_eq_joinSep ts hne, stripOneNL_concat]
  obtain ⟨c, hc, hcn⟩ := joinSep_getLast ts hne (fun l hl => ⟨(hts l hl).1, (hts l hl).2.1⟩)
  have hstrip2 : ((joinSep ts).reverse.dropWhile (· = '\n')).reverse = joinSep ts :=
    stripAllNL_eq_self hc hcn
  simp only [closeFence, hbufeq]
  simp [add_code_block, hsup, modifyAt, hstrip1, hstrip2, initPState]

/-- General `strtok` splitting: a `'\n'` anywhere splits tokenisation into
the tokens before it and after it (the partial token in progress, if any,
is terminated by that newline). -/
theorem strtokGo_split (v : CStr) :
    ∀ (u : CStr) (acc : CStr), '\n' ∉ acc →
      strtokGo acc (u ++ '\n' :: v) = strtokGo acc u ++ strtokGo [] v := by
  intro u
  induction u with
  | nil =>
      intro acc hacc
      by_cases h : acc = [] <;> simp [strtokGo, h]
  | cons c u' ih =>
      intro acc hacc
      by_cases hcn : c = '\n'
      · rw [List.cons_append, strtokGo, if_pos hcn]
        rw [strtokGo, if_pos hcn]
        by_cases h : acc = []
        · rw [if_pos h, if_pos h]
          exact ih [] (by simp)
        · rw [if_neg h, if_neg h, ih [] (by simp)]
          simp
      · rw [List.cons_append, strtokGo, if_neg hcn]
        rw [strtokGo, if_neg hcn]
        refine ih (c :: acc) ?_
        simp only [List.mem_cons, not_or]
        exact ⟨fun h => hcn h.symm, hacc⟩

theorem strtokLines_split (u v : CStr) :
    strtokLines (u ++ '\n' :: v) = strtokLines u ++ strtokLines v :=
  strtokGo_split v u [] (by simp)

/-- Parsing a document that is exactly one fenced block — fence line for a
registry language `L`, raw body text `body`, closing fence — yields a tree
of just the root carrying one block whose source is the `strtok` tokens of
`body` joined by single newlines: empty lines of the body are dropped. -/
theorem parse_fenced (L body : CStr)
    (hsup : is_language_supported L = true)
    (hLnl : '\n' ∉ L) (hLrt : rtrim L = L)
    (hbody : ∀ t ∈ strtokLines body, isFence (t.dropWhile cIsSpace) = false)
    (hne : strtokLines body ≠ []) :
    parse_markdown_content ("```".data ++ L ++ ['\n'] ++ body ++ '\n' :: "```".data) =
      [⟨0, none, [⟨L, joinSep (strtokLines body)⟩], [], none, [], none⟩] := by
  have hfenceline : '\n' ∉ ("```".data ++ L) := by
    intro hm
    rcases List.mem_append.mp hm with h1 | h1
    · simp at h1
    · exact hLnl h1
  have hdoc : "```".data ++ L ++ ['\n'] ++ body ++ '\n' :: "```".data
      = ("```".data ++ L) ++ '\n' :: (body ++ '\n' :: "```".data) := by
    simp
  have htok : strtokLines ("```".data ++ L ++ ['\n'] ++ body ++ '\n' :: "```".data)
      = ("```".data ++ L) :: (strtokLines body ++ ["```".data]) := by
    rw [hdoc, strtokLines_split, strtokLines_split body ("```".data),
      strtokLines_no_newline ("```".data ++ L) (by simp) hfenceline,
      strtokLines_no_newline ("```".data) (by decide) (by decide)]
    simp
  rw [parse_markdown_content, htok]
  exact foldl_fence_tokens L (strtokLines body) hsup hLnl hLrt
    (fun t ht => ⟨(strtokLines_tokens body t ht).1, (strtokLines_tokens body t ht).2, hbody t ht⟩)
    hne

/-! ### Claims C6 and C7 -/

/-- C6, counterexample: a fenced `sh` block whose body is `a`, a blank
line, then `b`.  The captured source is `"a\nb"` — the blank line is
dropped by `strtok` tokenisation — not the literal `"a\n\nb"` the claim
requires. -/
theorem code_source_blank_line_cex :
    ((parse_markdown_content ("```sh\na\n\nb\n```".data)).getD 0 default).codeBlocks =
      [⟨"sh".data, "a\nb".data⟩] ∧
    ("a\nb".data : CStr) ≠ "a\n\nb".data := by
  decide

/-- C6 (amended): the captured source of a fenced block equals the
nonempty lines of the fenced region (its `strtok` tokens) joined by
single newlines with no trailing newline: newlines between non-blank
lines are preserved, but blank lines inside the fence are dropped. -/
theorem code_source_drops_empty_lines (L body : CStr)
    (hsup : is_language_supported L = true)
    (hLnl : '\n' ∉ L) (hLrt : rtrim L = L)
    (hbody : ∀ t ∈ strtokLines body, isFence (t.dropWhile cIsSpace) = false)
    (hne : strtokLines body ≠ []) :
    parse_markdown_content ("```".data ++ L ++ ['\n'] ++ body ++ '\n' :: "```".data) =
      [⟨0, none, [⟨L, joinSep (strtokLines body)⟩], [], none, [], none⟩] :=
  parse_fenced L body hsup hLnl hLrt hbody hne

/-- C6, witness for the amended theorem: body `a`, blank line, `b`. -/
theorem code_source_drops_empty_lines_witness :
    (is_language_supported ("sh".data) = true ∧
     '\n' ∉ ("sh".data : CStr) ∧
     rtrim ("sh".data) = "sh".data ∧
     (∀ t ∈ strtokLines ("a\n\nb".data), isFence (t.dropWhile cIsSpace) = false) ∧
     strtokLines ("a\n\nb".data) ≠ [] ∧
     parse_markdown_content ("```".data ++ "sh".data ++ ['\n'] ++ "a\n\nb".data ++
         '\n' :: "```".data) =
       [⟨0, none, [⟨"sh".data, joinSep (strtokLines ("a\n\nb".data))⟩], [], none, [], none⟩]) :=
  ⟨by decide, by decide, by decide, by decide, by decide,
    code_source_drops_empty_lines ("sh".data) ("a\n\nb".data)
      (by decide) (by decide) (by decide) (by decide) (by decide)⟩

/-- `strtok` recovers the exact lines from a newline-join of nonempty
newline-free lines. -/
theorem strtokLines_joinSep (ls : List CStr) (hne : ls ≠ [])
    (hok : ∀ l ∈ ls, l ≠ [] ∧ '\n' ∉ l) :
    strtokLines (joinSep ls) = ls := by
  induction ls with
  | nil => exact absurd rfl hne
  | cons l t ih =>
      cases t with
      | nil =>
          have h1 := hok l (by simp)
          simp [joinSep, strtokLines_no_newline l h1.1 h1.2]
      | cons y u =>
          rw [joinSep_cons_of_ne l (by simp)]
          have h1 := hok l (by simp)
          rw [strtokLines_split l (joinSep (y :: u)), strtokLines_no_newline l h1.1 h1.2,
            ih (by simp) (fun x hx => hok x (List.mem_cons_of_mem _ hx))]
          simp

/-- C7 (confirmed): every code block a parse produces has a source with no
trailing newline, and re-parsing the reconstructed document
`` ```L\n<source>\n``` `` yields exactly one code block (on the root of a
one-node tree) whose source is identical. -/
theorem code_block_roundtrip (content : CStr) (i : Nat)
    (hi : i < (parse_markdown_content content).length) (b : CodeBlock)
    (hb : b ∈ ((parse_markdown_content content).getD i default).codeBlocks) :
    b.content.getLast? ≠ some '\n' ∧
    parse_markdown_content ("```".data ++ b.info ++ ['\n'] ++ b.content ++ '\n' :: "```".data) =
      [⟨0, none, [⟨b.info, b.content⟩], [], none, [], none⟩] := by
  obtain ⟨hsup, ⟨hLnl, hLrt⟩, ls, hne, hok, hceq⟩ := (arenaInv_parse content).blocks_ok i hi b hb
  have htoks : strtokLines b.content = ls := by
    rw [hceq]
    exact strtokLines_joinSep ls hne (fun x hx => ⟨(hok x hx).1, (hok x hx).2.1⟩)
  obtain ⟨c, hc, hcn⟩ := joinSep_getLast ls hne (fun l hl => ⟨(hok l hl).1, (hok l hl).2.1⟩)
  constructor
  · rw [hceq, hc]
    intro hcontra
    exact hcn (Option.some.inj hcontra)
  · have happ := parse_fenced b.info b.content hsup hLnl hLrt
      (fun t ht => by
        rw [htoks] at ht
        exact (hok t ht).2.2)
      (by rw [htoks]; exact hne)
    rw [happ, htoks, ← hceq]

/-- C7, witness: the block `⟨sh, hi⟩` of `` ```sh\nhi\n``` `` round-trips. -/
theorem code_block_roundtrip_witness :
    (0 < (parse_markdown_content ("```sh\nhi\n```".data)).length ∧
     (⟨"sh".data, "hi".data⟩ : CodeBlock) ∈
       ((parse_markdown_content ("```sh\nhi\n```".data)).getD 0 default).codeBlocks ∧
     (("hi".data : CStr).getLast? ≠ some '\n' ∧
      parse_markdown_content ("```".data ++ "sh".data ++ ['\n'] ++ "hi".data ++
          '\n' :: "```".data) =
        [⟨0, none, [⟨"sh".data, "hi".data⟩], [], none, [], none⟩])) :=
  ⟨by decide, by decide,
    code_block_roundtrip ("```sh\nhi\n```".data) 0 (by decide)
      ⟨"sh".data, "hi".data⟩ (by decide)⟩

/-! ### Claim C8 -/

/-- In table mode, a table-branch line never leaves table mode. -/
theorem tableLine_inTable (st : PState) (trimmed : CStr) (hit : st.inTable = true) :
    (tableLine st trimmed).inTable = true := by
  unfold tableLine
  rw [hit]
  simp only [Bool.not_true, Bool.false_eq_true, if_false]
  split
  · split
    · rfl
    · exact hit
  · exact hit

/-- C8, counterexample: after a table's header row, a heading line does
not exit table mode, so the following `|` row is parsed as a binding of
the new heading node `H` instead of being skipped as a fresh table's
header. -/
theorem table_mode_heading_cex :
    ((parse_markdown_content ("| x | y |\n# H\n| a | 1 |".data)).getD 1 default).headingText =
      some ("H".data) ∧
    ((parse_markdown_content ("| x | y |\n# H\n| a | 1 |".data)).getD 1 default).env =
      [⟨"a".data, "1".data⟩] ∧
    ((parse_markdown_content ("| x | y |\n# H\n| a | 1 |".data)).getD 1 default).env ≠ [] := by
  decide

/-- C8 (amended): while not in code mode, with table mode on, processing
any line leaves table mode on unless the line's whitespace-trimmed form is
empty: headings, code fences and plain text lines do **not** exit table
mode; only a whitespace-only line does (a fully empty line yields no
`strtok` token at all and so cannot exit it either). -/
theorem table_mode_exit_only_blank (st : PState) (line : CStr)
    (hic : st.inCode = false) (hit : st.inTable = true) :
    (parseStep st line).inTable = !(line.dropWhile cIsSpace).isEmpty := by
  by_cases hb : line.dropWhile cIsSpace = []
  · rw [parseStep_blank st line hic hb, hb]
    rfl
  · have hrhs : (line.dropWhile cIsSpace).isEmpty = false := by
      cases hdw : line.dropWhile cIsSpace with
      | nil => exact absurd hdw hb
      | cons c t => rfl
    rw [hrhs]
    show (parseStep st line).inTable = true
    by_cases hh : 0 < get_heading_level (line.dropWhile cIsSpace)
    · rw [parseStep_heading st line hic hh]
      exact hit
    · by_cases hf : isFence (line.dropWhile cIsSpace) = true
      · rw [parseStep_fence_open st line hic hh hf]
        exact hit
      · by_cases hp : (line.dropWhile cIsSpace).head? = some '|'
        · rw [parseStep_table st line hic hh (by simpa using hf) hp]
          exact tableLine_inTable st _ hit
        · rw [parseStep_text st line hic hh (by simpa using hf) hp hb]
          split
          · exact hit
          · exact hit

/-- C8, witness: a heading line arriving in table mode leaves table mode
on. -/
theorem table_mode_exit_only_blank_witness :
    (let st : PState := ⟨[⟨0, none, [], [], none, [], none⟩], 0, false, none, [], true⟩;
     st.inCode = false ∧ st.inTable = true ∧
     (parseStep st ("# H".data)).inTable = !(("# H".data : CStr).dropWhile cIsSpace).isEmpty ∧
     (parseStep st ("# H".data)).inTable = true) := by
  refine ⟨rfl, rfl, ?_, by decide⟩
  exact table_mode_exit_only_blank _ ("# H".data) rfl rfl
